import Mathlib

/-!
# RustMedia plugin — verification of the storage-engine claims

Shallow embedding of the RustMedia repository's logic:

* `src/migrations/001_create_tables.sql` — the `update_folder_stats` trigger
  (folder `item_count` / `total_size` maintenance), the `update_tag_usage`
  trigger, and the `cleanup_expired_uploads` garbage-collection function.
* `src/assets/js/settings.js` — the client upload handler
  (`validateFile`, `addFiles`, `processQueue`, `uploadChunked`) and the
  folder-deletion flow (`RustMedia.Folders.deleteFolder`).
* `src/assets/js/admin.js` — the API client (`deleteFolder` default
  `force=false`) and `RustMedia.Format.fileSize`.

SQL rows become Lean structures; the per-row trigger bodies become pure
state-transition functions; a database history is a list of operations
folded over an initial state.  Machine integers are modelled with `Nat`
and `Int` (the SQL counters are `INTEGER`/`BIGINT`, far from overflow in
every scenario the claims quantify over).
-/

namespace RustMedia

/-! ## Folder statistics (`update_folder_stats` trigger)

A `media_items` row, restricted to the columns the trigger touches:
`folder_id` (nullable), `size`, and `deleted_at` (kept as a Boolean since
only its nullness matters to the aggregate the spec talks about).
Rows are addressed positionally; the SQL primary key guarantees that a
`WHERE id = X` clause touches at most one row, which positional
addressing models exactly. -/

structure MediaItemRow where
  folderId : Option Nat
  size : Nat
  deleted : Bool
deriving Repr, DecidableEq

/-- The two counters of a `media_folders` row that `update_folder_stats`
maintains: `item_count INTEGER` and `total_size BIGINT`. -/
structure FolderStats where
  itemCount : Int
  totalSize : Int
deriving Repr, DecidableEq

/-- Database state for the folder-stats trigger: the `media_items` rows and,
for every folder id, its stats row. -/
structure MediaDb where
  items : List MediaItemRow
  stats : Nat → FolderStats

/-- One `UPDATE media_folders SET item_count = item_count + dc,
total_size = total_size + ds WHERE id = fid` step.  When `fid` is `NULL`
the `WHERE` clause matches no row, exactly as in SQL. -/
def bumpStats (st : Nat → FolderStats) (fid : Option Nat) (dc ds : Int) :
    Nat → FolderStats :=
  match fid with
  | none => st
  | some g => fun x => if x = g then ⟨(st g).itemCount + dc, (st g).totalSize + ds⟩ else st x

/-- The row-level operations on `media_items` that fire
`update_folder_stats`: insert a (live) row, delete the row at a position,
move the row at a position to a new folder. -/
inductive MediaOp where
  | insert (folderId : Option Nat) (size : Nat)
  | delete (idx : Nat)
  | move (idx : Nat) (newFolder : Option Nat)
deriving Repr, DecidableEq

/-- One `media_items` mutation together with the `AFTER ... FOR EACH ROW`
trigger `update_folder_stats` (001_create_tables.sql lines 191–231):

* `INSERT` — add 1 / `NEW.size` to `NEW.folder_id`;
* `DELETE` — subtract 1 / `OLD.size` from `OLD.folder_id`;
* `UPDATE` with `OLD.folder_id IS DISTINCT FROM NEW.folder_id` — subtract
  from the old folder when non-NULL, add to the new folder when non-NULL;
  an update that keeps the folder changes no stats. -/
def applyMediaOp (s : MediaDb) : MediaOp → MediaDb
  | .insert fid sz =>
      { items := s.items ++ [⟨fid, sz, false⟩]
        stats := bumpStats s.stats fid 1 (sz : Int) }
  | .delete i =>
      match s.items.get? i with
      | none => s
      | some r =>
          { items := s.items.eraseIdx i
            stats := bumpStats s.stats r.folderId (-1) (-(r.size : Int)) }
  | .move i nf =>
      match s.items.get? i with
      | none => s
      | some r =>
          if r.folderId = nf then { s with items := s.items.set i { r with folderId := nf } }
          else
            { items := s.items.set i { r with folderId := nf }
              stats := bumpStats (bumpStats s.stats r.folderId (-1) (-(r.size : Int)))
                        nf 1 (r.size : Int) }

/-- The initial database: no items, every folder created with
`item_count = 0, total_size = 0` (the column defaults). -/
def initMediaDb : MediaDb :=
  { items := [], stats := fun _ => ⟨0, 0⟩ }

/-- Run a sequence of media-item operations. -/
def runMediaOps (ops : List MediaOp) (s : MediaDb) : MediaDb :=
  ops.foldl applyMediaOp s

/-- Whether a row is a non-deleted item sitting directly in folder `f`. -/
def liveInFolder (f : Nat) (r : MediaItemRow) : Bool :=
  !r.deleted && decide (r.folderId = some f)

/-- Count of non-deleted items directly in folder `f`. -/
def liveCount (items : List MediaItemRow) (f : Nat) : Nat :=
  (items.filter (liveInFolder f)).length

/-- Total size of non-deleted items directly in folder `f`. -/
def liveSize (items : List MediaItemRow) (f : Nat) : Nat :=
  ((items.filter (liveInFolder f)).map (·.size)).sum

/-! ### List bookkeeping lemmas for positional row updates -/

theorem filter_length_eraseIdx {α : Type} (p : α → Bool) :
    ∀ (l : List α) (i : Nat) (r : α), l.get? i = some r →
      (l.filter p).length = ((l.eraseIdx i).filter p).length + (if p r then 1 else 0) := by
  intro l
  induction l with
  | nil => intro i r h; simp at h
  | cons a t ih =>
    intro i r h
    cases i with
    | zero =>
      simp only [List.get?_cons_zero, Option.some.injEq] at h
      subst h
      by_cases hp : p a <;> simp [List.filter_cons, hp, List.eraseIdx]
    | succ i =>
      simp only [List.get?_cons_succ] at h
      have := ih i r h
      by_cases hp : p a <;> simp [List.filter_cons, hp, List.eraseIdx, this]
      all_goals omega

theorem filter_sum_eraseIdx {α : Type} (p : α → Bool) (μ : α → Nat) :
    ∀ (l : List α) (i : Nat) (r : α), l.get? i = some r →
      ((l.filter p).map μ).sum
        = (((l.eraseIdx i).filter p).map μ).sum + (if p r then μ r else 0) := by
  intro l
  induction l with
  | nil => intro i r h; simp at h
  | cons a t ih =>
    intro i r h
    cases i with
    | zero =>
      simp only [List.get?_cons_zero, Option.some.injEq] at h
      subst h
      by_cases hp : p a <;> simp [List.filter_cons, hp, List.eraseIdx]
      all_goals omega
    | succ i =>
      simp only [List.get?_cons_succ] at h
      have := ih i r h
      by_cases hp : p a <;> simp [List.filter_cons, hp, List.eraseIdx, this]
      all_goals omega

theorem filter_length_set {α : Type} (p : α → Bool) :
    ∀ (l : List α) (i : Nat) (r r' : α), l.get? i = some r →
      ((l.set i r').filter p).length + (if p r then 1 else 0)
        = (l.filter p).length + (if p r' then 1 else 0) := by
  intro l
  induction l with
  | nil => intro i r r' h; simp at h
  | cons a t ih =>
    intro i r r' h
    cases i with
    | zero =>
      simp only [List.get?_cons_zero, Option.some.injEq] at h
      subst h
      by_cases hp : p a <;> by_cases hp' : p r' <;>
        simp [List.filter_cons, hp, hp', List.set]
    | succ i =>
      simp only [List.get?_cons_succ] at h
      have := ih i r r' h
      by_cases hp : p a <;> simp [List.filter_cons, hp, List.set]
      all_goals omega

theorem filter_sum_set {α : Type} (p : α → Bool) (μ : α → Nat) :
    ∀ (l : List α) (i : Nat) (r r' : α), l.get? i = some r →
      (((l.set i r').filter p).map μ).sum + (if p r then μ r else 0)
        = ((l.filter p).map μ).sum + (if p r' then μ r' else 0) := by
  intro l
  induction l with
  | nil => intro i r r' h; simp at h
  | cons a t ih =>
    intro i r r' h
    cases i with
    | zero =>
      simp only [List.get?_cons_zero, Option.some.injEq] at h
      subst h
      by_cases hp : p a <;> by_cases hp' : p r' <;>
        simp [List.filter_cons, hp, hp', List.set]
      all_goals omega
    | succ i =>
      simp only [List.get?_cons_succ] at h
      have := ih i r r' h
      by_cases hp : p a <;> simp [List.filter_cons, hp, List.set]
      all_goals omega

/-! ### Aggregate-level corollaries of the bookkeeping lemmas -/

theorem liveCount_append_single (items : List MediaItemRow) (x : MediaItemRow) (f : Nat) :
    liveCount (items ++ [x]) f = liveCount items f + (if liveInFolder f x then 1 else 0) := by
  unfold liveCount
  rw [List.filter_append]
  by_cases hx : liveInFolder f x <;> simp [hx]

theorem liveSize_append_single (items : List MediaItemRow) (x : MediaItemRow) (f : Nat) :
    liveSize (items ++ [x]) f = liveSize items f + (if liveInFolder f x then x.size else 0) := by
  unfold liveSize
  rw [List.filter_append]
  by_cases hx : liveInFolder f x <;> simp [hx]

theorem liveCount_eraseIdx (items : List MediaItemRow) (i : Nat) (r : MediaItemRow) (f : Nat)
    (h : items.get? i = some r) :
    liveCount items f = liveCount (items.eraseIdx i) f + (if liveInFolder f r then 1 else 0) :=
  filter_length_eraseIdx (liveInFolder f) items i r h

theorem liveSize_eraseIdx (items : List MediaItemRow) (i : Nat) (r : MediaItemRow) (f : Nat)
    (h : items.get? i = some r) :
    liveSize items f = liveSize (items.eraseIdx i) f + (if liveInFolder f r then r.size else 0) :=
  filter_sum_eraseIdx (liveInFolder f) (·.size) items i r h

theorem liveCount_set (items : List MediaItemRow) (i : Nat) (r r' : MediaItemRow) (f : Nat)
    (h : items.get? i = some r) :
    liveCount (items.set i r') f + (if liveInFolder f r then 1 else 0)
      = liveCount items f + (if liveInFolder f r' then 1 else 0) :=
  filter_length_set (liveInFolder f) items i r r' h

theorem liveSize_set (items : List MediaItemRow) (i : Nat) (r r' : MediaItemRow) (f : Nat)
    (h : items.get? i = some r) :
    liveSize (items.set i r') f + (if liveInFolder f r then r.size else 0)
      = liveSize items f + (if liveInFolder f r' then r'.size else 0) :=
  filter_sum_set (liveInFolder f) (·.size) items i r r' h

theorem bumpStats_none (st : Nat → FolderStats) (dc ds : Int) :
    bumpStats st none dc ds = st := rfl

theorem bumpStats_count_same (st : Nat → FolderStats) (g : Nat) (dc ds : Int) :
    (bumpStats st (some g) dc ds g).itemCount = (st g).itemCount + dc := by
  simp [bumpStats]

theorem bumpStats_size_same (st : Nat → FolderStats) (g : Nat) (dc ds : Int) :
    (bumpStats st (some g) dc ds g).totalSize = (st g).totalSize + ds := by
  simp [bumpStats]

theorem bumpStats_other (st : Nat → FolderStats) (g : Nat) (dc ds : Int) (x : Nat)
    (h : ¬ x = g) : bumpStats st (some g) dc ds x = st x := by
  simp [bumpStats, h]

/-! ### The folder-stats invariant -/

/-- The invariant relating the trigger-maintained counters to the live
aggregates: every row is live (the modelled operations never set
`deleted_at`), and for every folder the stats row equals the aggregate. -/
def MediaInv (s : MediaDb) : Prop :=
  (∀ r ∈ s.items, r.deleted = false) ∧
  ∀ f, (s.stats f).itemCount = (liveCount s.items f : Int) ∧
       (s.stats f).totalSize = (liveSize s.items f : Int)

theorem mediaInv_init : MediaInv initMediaDb := by
  constructor
  · intro r hr; simp [initMediaDb] at hr
  · intro f; simp [initMediaDb, liveCount, liveSize]

theorem mediaInv_apply (s : MediaDb) (op : MediaOp) (h : MediaInv s) :
    MediaInv (applyMediaOp s op) := by
  obtain ⟨hlive, hstats⟩ := h
  cases op with
  | insert fid sz =>
    constructor
    · intro r hr
      simp only [applyMediaOp, List.mem_append, List.mem_singleton] at hr
      rcases hr with hr | hr
      · exact hlive r hr
      · subst hr; rfl
    · intro f
      obtain ⟨hc, hsz⟩ := hstats f
      simp only [applyMediaOp]
      have hcnt := liveCount_append_single s.items ⟨fid, sz, false⟩ f
      have hsum := liveSize_append_single s.items ⟨fid, sz, false⟩ f
      have hlf : liveInFolder f ⟨fid, sz, false⟩ = decide (fid = some f) := by
        simp [liveInFolder]
      rw [hlf] at hcnt hsum
      cases fid with
      | none =>
        rw [bumpStats_none]
        simp only [decide_eq_true_eq] at hcnt hsum
        simp at hcnt hsum
        constructor <;> omega
      | some g =>
        by_cases hg : f = g
        · subst hg
          simp at hcnt hsum
          refine ⟨?_, ?_⟩
          · rw [bumpStats_count_same]; omega
          · rw [bumpStats_size_same]; omega
        · rw [bumpStats_other _ _ _ _ _ hg]
          simp [Ne.symm hg] at hcnt hsum
          constructor <;> omega
  | delete i =>
    cases hget : s.items.get? i with
    | none =>
      constructor
      · intro r hr
        simp only [applyMediaOp, hget] at hr
        exact hlive r hr
      · intro f
        simp only [applyMediaOp, hget]
        exact hstats f
    | some r =>
      have hrmem : r ∈ s.items := List.get?_mem hget
      have hrlive : r.deleted = false := hlive r hrmem
      constructor
      · intro r' hr'
        simp only [applyMediaOp, hget] at hr'
        exact hlive r' (List.mem_of_mem_eraseIdx hr')
      · intro f
        obtain ⟨hc, hsz⟩ := hstats f
        simp only [applyMediaOp, hget]
        have hcnt := liveCount_eraseIdx s.items i r f hget
        have hsum := liveSize_eraseIdx s.items i r f hget
        have hlf : liveInFolder f r = decide (r.folderId = some f) := by
          simp [liveInFolder, hrlive]
        rw [hlf] at hcnt hsum
        cases hfid : r.folderId with
        | none =>
          rw [hfid] at hcnt hsum
          rw [bumpStats_none]
          simp at hcnt hsum
          constructor <;> omega
        | some g =>
          rw [hfid] at hcnt hsum
          by_cases hg : f = g
          · subst hg
            simp at hcnt hsum
            refine ⟨?_, ?_⟩
            · rw [bumpStats_count_same]; omega
            · rw [bumpStats_size_same]; omega
          · rw [bumpStats_other _ _ _ _ _ hg]
            simp [Ne.symm hg] at hcnt hsum
            constructor <;> omega
  | move i nf =>
    cases hget : s.items.get? i with
    | none =>
      constructor
      · intro r hr
        simp only [applyMediaOp, hget] at hr
        exact hlive r hr
      · intro f
        simp only [applyMediaOp, hget]
        exact hstats f
    | some r =>
      have hrmem : r ∈ s.items := List.get?_mem hget
      have hrlive : r.deleted = false := hlive r hrmem
      have hset : ∀ r'' ∈ s.items.set i { r with folderId := nf }, r''.deleted = false := by
        intro r'' hr''
        rcases List.mem_or_eq_of_mem_set hr'' with hmem | heq
        · exact hlive r'' hmem
        · subst heq; exact hlive r hrmem
      have hcnt0 := liveCount_set s.items i r { r with folderId := nf }
      have hsum0 := liveSize_set s.items i r { r with folderId := nf }
      by_cases hsame : r.folderId = nf
      · constructor
        · intro r'' hr''
          simp only [applyMediaOp, hget] at hr''
          rw [if_pos hsame] at hr''
          exact hset r'' hr''
        · intro f
          obtain ⟨hc, hsz⟩ := hstats f
          simp only [applyMediaOp, hget]
          rw [if_pos hsame]
          dsimp only
          have hcnt := hcnt0 f hget
          have hsum := hsum0 f hget
          have heqlive : liveInFolder f { r with folderId := nf } = liveInFolder f r := by
            simp [liveInFolder, hsame]
          rw [heqlive] at hcnt hsum
          cases hb : liveInFolder f r <;> simp [hb] at hcnt hsum <;>
            constructor <;> omega
      · constructor
        · intro r'' hr''
          simp only [applyMediaOp, hget] at hr''
          rw [if_neg hsame] at hr''
          exact hset r'' hr''
        · intro f
          obtain ⟨hc, hsz⟩ := hstats f
          simp only [applyMediaOp, hget]
          rw [if_neg hsame]
          dsimp only
          have hcnt := hcnt0 f hget
          have hsum := hsum0 f hget
          have hlfold : liveInFolder f r = decide (r.folderId = some f) := by
            simp [liveInFolder, hrlive]
          have hlfnew : liveInFolder f { r with folderId := nf } = decide (nf = some f) := by
            simp [liveInFolder, hrlive]
          rw [hlfold, hlfnew] at hcnt hsum
          cases hfid : r.folderId with
          | none =>
            cases nf with
            | none => exact absurd (hfid.trans rfl) hsame
            | some g =>
              rw [hfid] at hcnt hsum
              rw [bumpStats_none]
              by_cases hg : f = g
              · subst hg
                simp at hcnt hsum
                refine ⟨?_, ?_⟩
                · rw [bumpStats_count_same]; omega
                · rw [bumpStats_size_same]; omega
              · rw [bumpStats_other _ _ _ _ _ hg]
                simp [Ne.symm hg] at hcnt hsum
                constructor <;> omega
          | some g0 =>
            cases nf with
            | none =>
              rw [hfid] at hcnt hsum
              rw [bumpStats_none]
              by_cases hg : f = g0
              · subst hg
                simp at hcnt hsum
                refine ⟨?_, ?_⟩
                · rw [bumpStats_count_same]; omega
                · rw [bumpStats_size_same]; omega
              · rw [bumpStats_other _ _ _ _ _ hg]
                simp [Ne.symm hg] at hcnt hsum
                constructor <;> omega
            | some g1 =>
              have hgg : g0 ≠ g1 := fun hgg => hsame (by rw [hfid, hgg])
              rw [hfid] at hcnt hsum
              by_cases hg0 : f = g0
              · subst hg0
                have hg1 : ¬ f = g1 := fun hh => hgg (hh ▸ rfl)
                rw [bumpStats_other _ _ _ _ _ hg1]
                simp [Ne.symm hg1] at hcnt hsum
                refine ⟨?_, ?_⟩
                · rw [bumpStats_count_same]; omega
                · rw [bumpStats_size_same]; omega
              · by_cases hg1 : f = g1
                · subst hg1
                  simp [Ne.symm hg0] at hcnt hsum
                  refine ⟨?_, ?_⟩
                  · rw [bumpStats_count_same, bumpStats_other _ _ _ _ _ hg0]; omega
                  · rw [bumpStats_size_same, bumpStats_other _ _ _ _ _ hg0]; omega
                · rw [bumpStats_other _ _ _ _ _ hg1, bumpStats_other _ _ _ _ _ hg0]
                  simp [Ne.symm hg0, Ne.symm hg1] at hcnt hsum
                  constructor <;> omega

theorem mediaInv_run (ops : List MediaOp) :
    ∀ s : MediaDb, MediaInv s → MediaInv (runMediaOps ops s) := by
  induction ops with
  | nil => intro s h; exact h
  | cons op rest ih =>
    intro s h
    exact ih (applyMediaOp s op) (mediaInv_apply s op h)

/-- **C1.** For every folder F, after any sequence of media-item insertions,
deletions, and folder moves starting from the empty state (every folder with
item_count = 0 and total_size = 0), the trigger-maintained F.item_count equals
the count of non-deleted media items whose folder_id equals F, and
F.total_size equals the sum of their sizes. -/
theorem folder_stats_match_live_aggregates (ops : List MediaOp) (f : Nat) :
    ((runMediaOps ops initMediaDb).stats f).itemCount
        = (liveCount (runMediaOps ops initMediaDb).items f : Int)
    ∧ ((runMediaOps ops initMediaDb).stats f).totalSize
        = (liveSize (runMediaOps ops initMediaDb).items f : Int) :=
  (mediaInv_run ops initMediaDb mediaInv_init).2 f

/-- **C4.** Moving a media item of size s from folder A to folder B, in the
single step that changes the row's folder_id, decrements A's item_count by 1
and total_size by s, increments B's item_count by 1 and total_size by s, and
leaves the stats of every other folder (ancestors included) unchanged. -/
theorem move_item_frame_effect (s : MediaDb) (i : Nat) (r : MediaItemRow)
    (A B : Nat) (hget : s.items.get? i = some r) (hA : r.folderId = some A)
    (hAB : A ≠ B) :
    (applyMediaOp s (.move i (some B))).items
        = s.items.set i { r with folderId := some B }
    ∧ ((applyMediaOp s (.move i (some B))).stats A).itemCount
        = (s.stats A).itemCount - 1
    ∧ ((applyMediaOp s (.move i (some B))).stats A).totalSize
        = (s.stats A).totalSize - (r.size : Int)
    ∧ ((applyMediaOp s (.move i (some B))).stats B).itemCount
        = (s.stats B).itemCount + 1
    ∧ ((applyMediaOp s (.move i (some B))).stats B).totalSize
        = (s.stats B).totalSize + (r.size : Int)
    ∧ ∀ C, C ≠ A → C ≠ B → (applyMediaOp s (.move i (some B))).stats C = s.stats C := by
  have hsame : ¬ (r.folderId = some B) := by
    rw [hA]; exact fun h => hAB (Option.some.inj h)
  have hBA : ¬ B = A := fun h => hAB h.symm
  simp only [applyMediaOp, hget]
  rw [if_neg hsame, hA]
  dsimp only
  refine ⟨rfl, ?_, ?_, ?_, ?_, ?_⟩
  · rw [bumpStats_other _ _ _ _ _ hAB, bumpStats_count_same]; omega
  · rw [bumpStats_other _ _ _ _ _ hAB, bumpStats_size_same]; omega
  · rw [bumpStats_count_same, bumpStats_other _ _ _ _ _ hBA]
  · rw [bumpStats_size_same, bumpStats_other _ _ _ _ _ hBA]
  · intro C hCA hCB
    rw [bumpStats_other _ _ _ _ _ hCB, bumpStats_other _ _ _ _ _ hCA]

/-- Witness for the move frame effect: one item of size 5 in folder 0, moved
to folder 1; folder 2 is untouched. -/
theorem move_item_frame_effect_witness :
    ((applyMediaOp (runMediaOps [.insert (some 0) 5] initMediaDb)
        (.move 0 (some 1))).stats 0).itemCount
      = ((runMediaOps [.insert (some 0) 5] initMediaDb).stats 0).itemCount - 1
    ∧ ((applyMediaOp (runMediaOps [.insert (some 0) 5] initMediaDb)
        (.move 0 (some 1))).stats 1).totalSize
      = ((runMediaOps [.insert (some 0) 5] initMediaDb).stats 1).totalSize + 5
    ∧ (applyMediaOp (runMediaOps [.insert (some 0) 5] initMediaDb)
        (.move 0 (some 1))).stats 2
      = (runMediaOps [.insert (some 0) 5] initMediaDb).stats 2 := by
  have h := move_item_frame_effect (runMediaOps [.insert (some 0) 5] initMediaDb)
    0 ⟨some 0, 5, false⟩ 0 1 rfl rfl (by decide)
  exact ⟨h.2.1, h.2.2.2.2.1, h.2.2.2.2.2 2 (by decide) (by decide)⟩

/-! ## Tag usage counts (`update_tag_usage` trigger)

The `media_item_tags` junction table is a list of `(media_id, tag_id)`
pairs with primary key `(media_id, tag_id)`; `media_tags.usage_count`
(`INTEGER`, default 0) is kept by the trigger firing `AFTER INSERT OR
DELETE` on the junction table (001_create_tables.sql lines 234–250). -/

/-- State for the tag-usage trigger: the association rows and, per tag id,
its usage_count. -/
structure TagDb where
  assocs : List (Nat × Nat)
  usage : Nat → Int

/-- `UPDATE media_tags SET usage_count = usage_count + d WHERE id = t`. -/
def bumpUsage (u : Nat → Int) (t : Nat) (d : Int) : Nat → Int :=
  fun x => if x = t then u t + d else u x

/-- Insert or delete one association row. -/
inductive TagOp where
  | insert (media tag : Nat)
  | delete (media tag : Nat)
deriving Repr, DecidableEq

/-- One `media_item_tags` mutation with the `update_tag_usage` trigger.
An `INSERT` of a pair already present violates the primary key, so the
statement fails and the trigger does not fire; otherwise the row is added
and the tag's usage_count incremented.  A `DELETE ... WHERE media_id = m AND
tag_id = t` removes every matching row and fires the row-level trigger once
per removed row, decrementing the usage_count accordingly. -/
def applyTagOp (s : TagDb) : TagOp → TagDb
  | .insert m t =>
      if (m, t) ∈ s.assocs then s
      else { assocs := s.assocs ++ [(m, t)], usage := bumpUsage s.usage t 1 }
  | .delete m t =>
      { assocs := s.assocs.filter (fun a => a ≠ (m, t))
        usage := bumpUsage s.usage t (-(s.assocs.countP (fun a => a = (m, t)) : Int)) }

/-- The initial tag database: no associations, every tag created with
usage_count = 0 (the column default). -/
def initTagDb : TagDb := { assocs := [], usage := fun _ => 0 }

def runTagOps (ops : List TagOp) (s : TagDb) : TagDb :=
  ops.foldl applyTagOp s

/-- Number of association rows referencing tag t. -/
def tagRefCount (assocs : List (Nat × Nat)) (t : Nat) : Nat :=
  (assocs.filter (fun a => a.2 = t)).length

theorem tagRefCount_filter_ne_same (l : List (Nat × Nat)) (m t : Nat) :
    tagRefCount (l.filter (fun a => a ≠ (m, t))) t
      + l.countP (fun a => a = (m, t))
      = tagRefCount l t := by
  induction l with
  | nil => simp [tagRefCount]
  | cons a l ih =>
    unfold tagRefCount at *
    by_cases ha : a = (m, t)
    · subst ha
      simp [List.filter_cons, List.countP_cons] at ih ⊢
      omega
    · by_cases hsnd : a.2 = t
      · simp [List.filter_cons, List.countP_cons, ha, hsnd] at ih ⊢
        omega
      · simp [List.filter_cons, List.countP_cons, ha, hsnd] at ih ⊢
        omega

theorem tagRefCount_filter_ne_other (l : List (Nat × Nat)) (m t t' : Nat)
    (h : t' ≠ t) :
    tagRefCount (l.filter (fun a => a ≠ (m, t))) t' = tagRefCount l t' := by
  induction l with
  | nil => simp [tagRefCount]
  | cons a l ih =>
    unfold tagRefCount at *
    by_cases ha : a = (m, t)
    · subst ha
      have hne : ¬ ((m, t).2 = t') := fun hh => h hh.symm
      simp [List.filter_cons, List.countP_cons, hne] at ih ⊢
      exact ih
    · by_cases hsnd : a.2 = t'
      · simp [List.filter_cons, List.countP_cons, ha, hsnd] at ih ⊢
        omega
      · simp [List.filter_cons, List.countP_cons, ha, hsnd] at ih ⊢
        omega

/-- The tag-usage invariant: every usage_count equals the number of
association rows referencing that tag. -/
def TagInv (s : TagDb) : Prop :=
  ∀ t, s.usage t = (tagRefCount s.assocs t : Int)

theorem tagInv_init : TagInv initTagDb := by
  intro t; simp [initTagDb, tagRefCount]

theorem tagInv_apply (s : TagDb) (op : TagOp) (h : TagInv s) :
    TagInv (applyTagOp s op) := by
  cases op with
  | insert m t =>
    by_cases hmem : (m, t) ∈ s.assocs
    · simpa [applyTagOp, hmem] using h
    · intro t'
      simp only [applyTagOp, if_neg hmem]
      have hh := h t'
      unfold tagRefCount at *
      rw [List.filter_append]
      by_cases ht : t' = t
      · subst ht
        simp [bumpUsage, hh]
      · simp [bumpUsage, ht, Ne.symm ht, hh]
  | delete m t =>
    intro t'
    have hh := h t'
    simp only [applyTagOp]
    by_cases ht : t' = t
    · subst ht
      have hcnt := tagRefCount_filter_ne_same s.assocs m t'
      simp only [ne_eq, decide_not] at hcnt
      simp [bumpUsage, hh]
      omega
    · have hcnt := tagRefCount_filter_ne_other s.assocs m t t' ht
      simp only [ne_eq, decide_not] at hcnt
      simp [bumpUsage, ht, hh]
      omega

theorem tagInv_run (ops : List TagOp) :
    ∀ s : TagDb, TagInv s → TagInv (runTagOps ops s) := by
  induction ops with
  | nil => intro s h; exact h
  | cons op rest ih =>
    intro s h
    exact ih (applyTagOp s op) (tagInv_apply s op h)

/-- **C6.** For every tag, starting from usage_count = 0 at creation, after
any sequence of insertions and deletions of rows in the media_item_tags
association table, the tag's usage_count equals the number of association
rows referencing that tag. -/
theorem tag_usage_matches_ref_count (ops : List TagOp) (t : Nat) :
    (runTagOps ops initTagDb).usage t
      = (tagRefCount (runTagOps ops initTagDb).assocs t : Int) :=
  tagInv_run ops initTagDb tagInv_init t

end RustMedia

namespace RustMedia

/-! ## Garbage collection of expired chunked uploads
(`cleanup_expired_uploads`, 001_create_tables.sql lines 253–263)

The SQL function deletes every `media_chunked_uploads` row with
`expires_at < NOW() AND completed_at IS NULL` and returns the row count.
Timestamps are modelled as naturals. -/

/-- A `media_chunked_uploads` row, restricted to the columns the sweep
reads: `expires_at`, `completed_at` (nullable) and `temp_path`. -/
structure ChunkedUploadRow where
  id : Nat
  expiresAt : Nat
  completedAt : Option Nat
  tempPath : String
deriving Repr, DecidableEq

/-- Upload-tracker state: the upload records plus the set of temp-artifact
paths currently on disk. -/
structure UploadStore where
  uploads : List ChunkedUploadRow
  tempFiles : List String
deriving Repr, DecidableEq

/-- The sweep's selection predicate, from the SQL `WHERE` clause:
`expires_at < NOW() AND completed_at IS NULL`. -/
def isExpiredIncomplete (now : Nat) (u : ChunkedUploadRow) : Bool :=
  decide (u.expiresAt < now) && u.completedAt.isNone

/-- The garbage-collection sweep.  The record deletion and the returned
count are the SQL function body (`DELETE FROM media_chunked_uploads WHERE
expires_at < NOW() AND completed_at IS NULL; GET DIAGNOSTICS deleted_count
= ROW_COUNT`).  Modelled from the spec: the engine-side removal of the
selected uploads' temp artifacts ("deletes their temp artifacts, and
removes their records") is not in src/, so the sweep also drops each
selected row's temp_path from the on-disk set, following the spec's words. -/
def cleanupExpiredUploads (now : Nat) (s : UploadStore) : UploadStore × Nat :=
  let expired := s.uploads.filter (isExpiredIncomplete now)
  ({ uploads := s.uploads.filter (fun u => !isExpiredIncomplete now u)
     tempFiles := s.tempFiles.filter (fun p => !(expired.map (·.tempPath)).contains p) },
   expired.length)

/-- **C3.** The sweep removes exactly the uploads whose expiry is past and
whose completed_at is unset: a record survives iff it was present and not
(expired and incomplete); the returned count is the number of removed
records; every upload with completed_at set is untouched; and a temp path
survives iff it was on disk and is not the temp path of a removed upload. -/
theorem cleanup_removes_exactly_expired_incomplete (now : Nat) (s : UploadStore) :
    (∀ u, u ∈ (cleanupExpiredUploads now s).1.uploads
        ↔ u ∈ s.uploads ∧ isExpiredIncomplete now u = false)
    ∧ (cleanupExpiredUploads now s).2
        = (s.uploads.filter (isExpiredIncomplete now)).length
    ∧ (∀ u, u ∈ s.uploads → u.completedAt.isSome
        → u ∈ (cleanupExpiredUploads now s).1.uploads)
    ∧ (∀ p, p ∈ (cleanupExpiredUploads now s).1.tempFiles
        ↔ p ∈ s.tempFiles
          ∧ ¬ p ∈ (s.uploads.filter (isExpiredIncomplete now)).map (·.tempPath)) := by
  refine ⟨?_, rfl, ?_, ?_⟩
  · intro u
    simp [cleanupExpiredUploads, List.mem_filter]
  · intro u hu hc
    simp only [cleanupExpiredUploads, List.mem_filter]
    refine ⟨hu, ?_⟩
    simp [isExpiredIncomplete]
    exact Or.inr hc
  · intro p
    simp [cleanupExpiredUploads, List.mem_filter]

/-- Witness for the sweep: at time 10, an expired incomplete upload is
removed together with its temp file; an upload completed before its expiry
survives; the count is 1. -/
theorem cleanup_removes_exactly_expired_incomplete_witness :
    (⟨2, 5, some 4, "b.tmp"⟩ : ChunkedUploadRow)
        ∈ (cleanupExpiredUploads 10
            ⟨[⟨1, 5, none, "a.tmp"⟩, ⟨2, 5, some 4, "b.tmp"⟩],
              ["a.tmp", "b.tmp"]⟩).1.uploads
    ∧ ¬ (⟨1, 5, none, "a.tmp"⟩ : ChunkedUploadRow)
        ∈ (cleanupExpiredUploads 10
            ⟨[⟨1, 5, none, "a.tmp"⟩, ⟨2, 5, some 4, "b.tmp"⟩],
              ["a.tmp", "b.tmp"]⟩).1.uploads
    ∧ (cleanupExpiredUploads 10
        ⟨[⟨1, 5, none, "a.tmp"⟩, ⟨2, 5, some 4, "b.tmp"⟩],
          ["a.tmp", "b.tmp"]⟩).2 = 1
    ∧ ¬ "a.tmp" ∈ (cleanupExpiredUploads 10
        ⟨[⟨1, 5, none, "a.tmp"⟩, ⟨2, 5, some 4, "b.tmp"⟩],
          ["a.tmp", "b.tmp"]⟩).1.tempFiles := by
  have h := cleanup_removes_exactly_expired_incomplete 10
    ⟨[⟨1, 5, none, "a.tmp"⟩, ⟨2, 5, some 4, "b.tmp"⟩], ["a.tmp", "b.tmp"]⟩
  refine ⟨h.2.2.1 ⟨2, 5, some 4, "b.tmp"⟩ (by decide) (by decide), ?_, h.2.1, ?_⟩
  · intro hmem
    have := (h.1 ⟨1, 5, none, "a.tmp"⟩).mp hmem
    revert this
    decide
  · intro hmem
    have := (h.2.2.2 "a.tmp").mp hmem
    revert this
    decide

end RustMedia

namespace RustMedia.Upload

/-! ## Client chunked upload (`RustMedia.Upload.uploadChunked`,
settings.js lines 495–528)

The client computes `totalChunks = Math.ceil(size / chunkSize)` and, for
`i = 0 .. totalChunks-1` in increasing order, uploads
`file.slice(i*chunkSize, Math.min(i*chunkSize + chunkSize, size))`.
A file is a list of bytes; `Math.ceil(S / C)` over naturals is
`(S + C - 1) / C`. -/

/-- `Math.ceil(size / chunkSize)` for positive `chunkSize`. -/
def totalChunks (S C : Nat) : Nat := (S + C - 1) / C

/-- `file.slice(a, b)`: the byte range `[a, b)`. -/
def jsSlice {α : Type} (l : List α) (a b : Nat) : List α := (l.take b).drop a

/-- Chunk `i` of the file: `file.slice(start, end)` with `start = i*C` and
`end = Math.min(start + C, size)`. -/
def chunkOf {α : Type} (l : List α) (C i : Nat) : List α :=
  jsSlice l (i * C) (min (i * C + C) l.length)

/-- All chunks in increasing index order, as the upload loop sends them. -/
def chunksOf {α : Type} (l : List α) (C : Nat) : List (List α) :=
  (List.range (totalChunks l.length C)).map (chunkOf l C)

theorem totalChunks_slack (S C : Nat) (hS : 0 < S) (hC : 0 < C) :
    (totalChunks S C - 1) * C < S ∧ S ≤ totalChunks S C * C := by
  unfold totalChunks
  have h1 := Nat.lt_div_mul_add (a := S + C - 1) hC
  have h2 := Nat.div_mul_le_self (S + C - 1) C
  rw [Nat.sub_mul, one_mul]
  omega

theorem jsSlice_length {α : Type} (l : List α) (a b : Nat) (hb : b ≤ l.length) :
    (jsSlice l a b).length = b - a := by
  unfold jsSlice
  simp [List.length_drop, List.length_take]
  omega

theorem chunks_concat_take {α : Type} (l : List α) (C : Nat) :
    ∀ k, ((List.range k).map (chunkOf l C)).flatten = l.take (min (k * C) l.length) := by
  intro k
  induction k with
  | zero => simp
  | succ k ih =>
    rw [List.range_succ, List.map_append, List.flatten_append]
    simp only [List.map_cons, List.map_nil, List.flatten_cons, List.flatten_nil, List.append_nil]
    rw [ih]
    unfold chunkOf jsSlice
    have hmin : min (k * C) (min (k * C + C) l.length) = min (k * C) l.length := by
      omega
    rw [Nat.succ_mul]
    conv_lhs => rw [← hmin, ← List.take_take]
    rw [List.take_append_drop]

/-- **C5.** For a file of S > 0 bytes and chunk size C > 0, the client
sends N = ceil(S / C) chunks; chunk i is the byte range
[i*C, min(i*C + C, S)) in increasing index order; the ranges are pairwise
disjoint; the concatenation of the chunks is the file; every chunk except
possibly the last has length exactly C; the last has length S - (N-1)*C,
which is positive and at most C; and the init parameters satisfy the
one-chunk slack validation (N-1)*C < S <= N*C. -/
theorem uploadChunked_chunking {α : Type} (l : List α) (C N : Nat)
    (hN : N = totalChunks l.length C) (hS : 0 < l.length) (hC : 0 < C) :
    (chunksOf l C).length = N
    ∧ (chunksOf l C).flatten = l
    ∧ (∀ i, i < N →
        (chunksOf l C)[i]? = some (jsSlice l (i * C) (min (i * C + C) l.length)))
    ∧ (∀ i j, i < j → min (i * C + C) l.length ≤ j * C)
    ∧ (∀ i, i + 1 < N → (chunkOf l C i).length = C)
    ∧ (chunkOf l C (N - 1)).length = l.length - (N - 1) * C
    ∧ 0 < l.length - (N - 1) * C
    ∧ l.length - (N - 1) * C ≤ C
    ∧ (N - 1) * C < l.length ∧ l.length ≤ N * C := by
  obtain ⟨hlo, hhi⟩ := totalChunks_slack l.length C hS hC
  rw [← hN] at hlo hhi
  have hNpos : 0 < N := by
    rcases Nat.eq_zero_or_pos N with h0 | h0
    · rw [h0] at hhi; omega
    · exact h0
  have hNC : N * C = (N - 1) * C + C := by
    have h1 : N - 1 + 1 = N := by omega
    calc N * C = (N - 1 + 1) * C := by rw [h1]
    _ = (N - 1) * C + C := by rw [Nat.succ_mul]
  refine ⟨?_, ?_, ?_, ?_, ?_, ?_, ?_, ?_, hlo, hhi⟩
  · simp [chunksOf, hN]
  · have := chunks_concat_take l C (totalChunks l.length C)
    rw [← hN] at this
    unfold chunksOf
    rw [← hN, this]
    have : min (N * C) l.length = l.length := by omega
    rw [this, List.take_length]
  · intro i hi
    rw [hN] at hi
    simp [chunksOf, List.getElem?_map, List.getElem?_range hi, chunkOf]
  · intro i j hij
    have h1 : (i + 1) * C ≤ j * C := Nat.mul_le_mul_right C hij
    have h2 : (i + 1) * C = i * C + C := Nat.succ_mul i C
    omega
  · intro i hi
    have h1 : (i + 1) * C ≤ (N - 1) * C := Nat.mul_le_mul_right C (by omega)
    have h2 : (i + 1) * C = i * C + C := Nat.succ_mul i C
    have hb : min (i * C + C) l.length ≤ l.length := Nat.min_le_right _ _
    unfold chunkOf
    rw [jsSlice_length l _ _ hb]
    omega
  · have hb : min ((N - 1) * C + C) l.length ≤ l.length := Nat.min_le_right _ _
    unfold chunkOf
    rw [jsSlice_length l _ _ hb]
    omega
  · omega
  · omega

/-- Witness for the chunking theorem: a 3-byte file with chunk size 2 is
sent as 2 chunks, whose concatenation is the file; the first chunk has
length 2 and the last length 1. -/
theorem uploadChunked_chunking_witness :
    (chunksOf [7, 8, 9] 2).flatten = [7, 8, 9]
    ∧ (chunksOf [7, 8, 9] 2).length = 2
    ∧ (chunkOf [7, 8, 9] 2 0).length = 2
    ∧ (chunkOf [7, 8, 9] 2 1).length = 1 := by
  have h := uploadChunked_chunking [7, 8, 9] 2 2 (by rfl) (by decide) (by decide)
  refine ⟨h.2.1, h.1, h.2.2.2.2.1 0 (by decide), ?_⟩
  have := h.2.2.2.2.2.1
  simpa using this

end RustMedia.Upload

namespace RustMedia.Upload

/-! ## Client upload queue (settings.js lines 283–457)

`RustMedia.Upload` keeps `queue` (items with a status) and an `uploading`
flag.  `addFiles` validates each file and pushes a pending item, then calls
`processQueue`.  `processQueue` returns at once when `uploading` is set;
otherwise it marks the first pending item as uploading, sets the flag, and
awaits the upload; the continuation after the await marks the item
complete or error, clears the flag, and calls `processQueue` again.
Filenames are lists of characters(JS strings). -/

/-- A JS `File`: name and byte size. -/
structure JsFile where
  name : List Char
  size : Nat
deriving Repr, DecidableEq

/-- The fields of `RUSTMEDIA_CONFIG` that `validateFile` reads:
`maxFileSize` and the optional `allowedExtensions` list. -/
structure UploadConfig where
  maxFileSize : Nat
  allowedExtensions : Option (List (List Char))
deriving Repr, DecidableEq

/-- `name.split('.')` for the one-character separator `'.'`. -/
def splitOnDot : List Char → List (List Char)
  | [] => [[]]
  | c :: rest =>
      match splitOnDot rest with
      | [] => [[c]]
      | s :: ss => if c = '.' then [] :: s :: ss else (c :: s) :: ss

/-- `file.name.split('.').pop().toLowerCase()`: the last split component,
lowercased.  `split` never yields an empty array, so the default is never
used. -/
def extOf (name : List Char) : List Char :=
  ((splitOnDot name).getLast?.getD []).map Char.toLower

/-- `RustMedia.Upload.validateFile` (settings.js lines 355–370): reject a
file larger than `maxFileSize`; when `allowedExtensions` is configured,
reject an extension outside the list; otherwise accept. -/
def validateFile (cfg : UploadConfig) (f : JsFile) : Bool :=
  if f.size > cfg.maxFileSize then false
  else
    match cfg.allowedExtensions with
    | some exts => if !(exts.contains (extOf f.name)) then false else true
    | none => true

/-- Queue-item status, as the string states of settings.js. -/
inductive UploadStatus where
  | pending | uploading | processing | complete | error
deriving Repr, DecidableEq

structure QueueItem where
  file : JsFile
  status : UploadStatus
deriving Repr, DecidableEq

/-- The upload handler's mutable state: the queue and the in-flight flag. -/
structure UploadState where
  queue : List QueueItem
  uploading : Bool
deriving Repr, DecidableEq

/-- `this.queue.find(i => i.status === 'pending')` followed by
`item.status = 'uploading'`: mark the first pending item. -/
def markFirstPending : List QueueItem → List QueueItem
  | [] => []
  | r :: rest =>
      if r.status = .pending then { r with status := .uploading } :: rest
      else r :: markFirstPending rest

/-- The synchronous prefix of `processQueue` (settings.js lines 420–428):
return unchanged when `uploading` is set or no item is pending; otherwise
set the flag and mark the first pending item as uploading. -/
def tryStart (s : UploadState) : UploadState :=
  if s.uploading then s
  else if s.queue.any (fun r => decide (r.status = .pending)) then
    { queue := markFirstPending s.queue, uploading := true }
  else s

/-- `addFiles` (settings.js lines 336–353): push a pending queue item for
every file passing `validateFile`, then call `processQueue`. -/
def addFiles (cfg : UploadConfig) (s : UploadState) (files : List JsFile) : UploadState :=
  tryStart { s with
    queue := s.queue ++ (files.filter (validateFile cfg)).map (fun f => ⟨f, .pending⟩) }

/-- The chunked path's `item.status = 'processing'` just before completion
(settings.js line 523), applied to the in-flight item. -/
def setProcessing (q : List QueueItem) : List QueueItem :=
  q.map (fun r => if r.status = .uploading then { r with status := .processing } else r)

/-- The continuation after the awaited upload settles (settings.js lines
442–453): the in-flight item becomes complete or error. -/
def setDone (ok : Bool) (q : List QueueItem) : List QueueItem :=
  q.map (fun r =>
    if r.status = .uploading ∨ r.status = .processing then
      { r with status := if ok then .complete else .error }
    else r)

/-- The externally observable events of the upload handler:
file additions, the chunked path's progress-to-processing step, the
settling of the awaited upload (which clears the flag and re-runs
`processQueue`), and `cancel` (which splices an item out of the queue). -/
inductive UploadEv where
  | add (files : List JsFile)
  | toProcessing
  | finish (ok : Bool)
  | cancel (idx : Nat)
deriving Repr, DecidableEq

def applyUploadEv (cfg : UploadConfig) (s : UploadState) : UploadEv → UploadState
  | .add files => addFiles cfg s files
  | .toProcessing =>
      if s.uploading then { s with queue := setProcessing s.queue } else s
  | .finish ok =>
      if s.uploading then tryStart { queue := setDone ok s.queue, uploading := false }
      else s
  | .cancel i => { s with queue := s.queue.eraseIdx i }

/-- The handler's initial state: empty queue, flag clear. -/
def initUploadState : UploadState := ⟨[], false⟩

def runUpload (cfg : UploadConfig) (evs : List UploadEv) : UploadState :=
  evs.foldl (applyUploadEv cfg) initUploadState

/-- An item the handler currently has an upload in flight for. -/
def isInFlight (r : QueueItem) : Bool :=
  decide (r.status = .uploading) || decide (r.status = .processing)

def countInFlight (q : List QueueItem) : Nat := q.countP isInFlight

def countUploading (q : List QueueItem) : Nat :=
  q.countP (fun r => decide (r.status = .uploading))

/-- The machine invariant: with the flag clear nothing is in flight, and
with it set at most one item is. -/
def QueueInv (s : UploadState) : Prop :=
  (s.uploading = false → countInFlight s.queue = 0)
  ∧ countInFlight s.queue ≤ 1

theorem countUploading_le_countInFlight (q : List QueueItem) :
    countUploading q ≤ countInFlight q := by
  induction q with
  | nil => simp [countUploading, countInFlight]
  | cons r rest ih =>
    unfold countUploading countInFlight at *
    by_cases h : r.status = .uploading <;>
      simp [List.countP_cons, isInFlight, h] <;> omega

theorem countInFlight_append_pending (q : List QueueItem) (files : List JsFile) :
    countInFlight (q ++ files.map (fun f => ⟨f, .pending⟩)) = countInFlight q := by
  unfold countInFlight
  rw [List.countP_append]
  have : ∀ fs : List JsFile,
      List.countP isInFlight (fs.map (fun f => (⟨f, .pending⟩ : QueueItem))) = 0 := by
    intro fs
    induction fs with
    | nil => simp
    | cons f fs ih => simp [List.countP_cons, isInFlight, ih]
  rw [this]
  omega

theorem countInFlight_markFirstPending (q : List QueueItem) :
    countInFlight (markFirstPending q) ≤ countInFlight q + 1 := by
  induction q with
  | nil => simp [markFirstPending]
  | cons r rest ih =>
    by_cases h : r.status = .pending
    · simp only [markFirstPending, if_pos h]
      unfold countInFlight
      simp [List.countP_cons, isInFlight, h]
    · simp only [markFirstPending, if_neg h]
      unfold countInFlight at ih ⊢
      by_cases hf : isInFlight r <;> simp [List.countP_cons, hf] <;> omega

theorem countInFlight_setProcessing (q : List QueueItem) :
    countInFlight (setProcessing q) = countInFlight q := by
  induction q with
  | nil => simp [setProcessing, countInFlight]
  | cons r rest ih =>
    unfold setProcessing countInFlight at *
    by_cases h : r.status = .uploading <;>
      simp [List.countP_cons, isInFlight, h, ih]

theorem countInFlight_setDone (ok : Bool) (q : List QueueItem) :
    countInFlight (setDone ok q) = 0 := by
  unfold countInFlight setDone
  rw [List.countP_eq_zero]
  intro a ha
  simp only [List.mem_map] at ha
  obtain ⟨r, hr, rfl⟩ := ha
  by_cases h : r.status = .uploading ∨ r.status = .processing
  · cases ok <;> simp [isInFlight, h]
  · push_neg at h
    simp [isInFlight, h.1, h.2]

theorem tryStart_flagged (s : UploadState) (h : s.uploading = true) :
    tryStart s = s := by
  unfold tryStart
  rw [h]
  simp

theorem queueInv_tryStart (s : UploadState) (hfl : s.uploading = false)
    (hq : countInFlight s.queue = 0) : QueueInv (tryStart s) := by
  unfold tryStart
  rw [hfl]
  by_cases hp : s.queue.any (fun r => decide (r.status = .pending))
  · rw [if_neg (by simp), if_pos hp]
    unfold QueueInv
    dsimp only
    refine ⟨fun hc => by simp at hc, ?_⟩
    have := countInFlight_markFirstPending s.queue
    omega
  · rw [if_neg (by simp), if_neg hp]
    exact ⟨fun _ => hq, by omega⟩

theorem queueInv_apply (cfg : UploadConfig) (s : UploadState) (ev : UploadEv)
    (h : QueueInv s) : QueueInv (applyUploadEv cfg s ev) := by
  obtain ⟨h0, h1⟩ := h
  cases ev with
  | add files =>
    show QueueInv (addFiles cfg s files)
    unfold addFiles
    cases hfl : s.uploading with
    | true =>
      have heq : tryStart { s with
          queue := s.queue
            ++ (files.filter (validateFile cfg)).map (fun f => ⟨f, .pending⟩) }
          = { s with
              queue := s.queue
                ++ (files.filter (validateFile cfg)).map (fun f => ⟨f, .pending⟩) } :=
        tryStart_flagged _ hfl
      rw [hfl] at heq
      rw [heq]
      unfold QueueInv
      dsimp only
      rw [countInFlight_append_pending]
      exact ⟨fun hc => Bool.noConfusion hc, h1⟩
    | false =>
      refine queueInv_tryStart _ rfl ?_
      dsimp only
      rw [countInFlight_append_pending]
      exact h0 hfl
  | toProcessing =>
    simp only [applyUploadEv]
    cases hfl : s.uploading with
    | true =>
      rw [if_pos rfl]
      unfold QueueInv
      dsimp only
      rw [countInFlight_setProcessing]
      exact ⟨fun hc => Bool.noConfusion hc, h1⟩
    | false =>
      rw [if_neg (by simp)]
      exact ⟨h0, h1⟩
  | finish ok =>
    simp only [applyUploadEv]
    cases hfl : s.uploading with
    | true =>
      rw [if_pos rfl]
      exact queueInv_tryStart _ rfl (countInFlight_setDone ok s.queue)
    | false =>
      rw [if_neg (by simp)]
      exact ⟨h0, h1⟩
  | cancel i =>
    have hle : List.countP isInFlight (s.queue.eraseIdx i)
        ≤ List.countP isInFlight s.queue :=
      List.Sublist.countP_le isInFlight (List.eraseIdx_sublist s.queue i)
    unfold applyUploadEv QueueInv countInFlight at *
    dsimp only
    constructor
    · intro hc
      have := h0 hc
      omega
    · omega

theorem queueInv_run (cfg : UploadConfig) (evs : List UploadEv) :
    QueueInv (runUpload cfg evs) := by
  unfold runUpload
  have : ∀ s : UploadState, QueueInv s → QueueInv (evs.foldl (applyUploadEv cfg) s) := by
    induction evs with
    | nil => intro s h; exact h
    | cons ev rest ih => intro s h; exact ih _ (queueInv_apply cfg s ev h)
  exact this initUploadState ⟨fun _ => rfl, by simp [initUploadState, countInFlight]⟩

theorem markFirstPending_first (q : List QueueItem) :
    ∀ i : Nat, (markFirstPending q)[i]? ≠ q[i]? →
      (q[i]?).map (·.status) = some .pending
      ∧ ∀ j, j < i → (q[j]?).map (·.status) ≠ some .pending := by
  induction q with
  | nil => intro i h; simp [markFirstPending] at h
  | cons r rest ih =>
    intro i h
    by_cases hr : r.status = .pending
    · unfold markFirstPending at h
      rw [if_pos hr] at h
      cases i with
      | zero => exact ⟨by simp [hr], by intro j hj; omega⟩
      | succ i => simp at h
    · unfold markFirstPending at h
      rw [if_neg hr] at h
      cases i with
      | zero => simp at h
      | succ i =>
        simp only [List.getElem?_cons_succ] at h ⊢
        obtain ⟨ha, hb⟩ := ih i h
        refine ⟨ha, ?_⟩
        intro j hj
        cases j with
        | zero =>
          simp only [List.getElem?_cons_zero, Option.map_some]
          intro hc
          exact hr (Option.some.inj hc)
        | succ j =>
          simp only [List.getElem?_cons_succ]
          exact hb j (by omega)

/-- **C7.** The client upload queue never has more than one item in
'uploading' status: in every state reachable from the initial state by
file additions, progress, upload completions, and cancellations, at most
one queue item is 'uploading'; `processQueue` on a state whose `uploading`
flag is set returns it unchanged; and whenever `processQueue` marks an
item, that item is the first pending one in queue order. -/
theorem processQueue_single_upload (cfg : UploadConfig) (evs : List UploadEv) :
    countUploading (runUpload cfg evs).queue ≤ 1
    ∧ ((runUpload cfg evs).uploading = true →
        tryStart (runUpload cfg evs) = runUpload cfg evs)
    ∧ (∀ q : List QueueItem, ∀ i : Nat, (markFirstPending q)[i]? ≠ q[i]? →
        (q[i]?).map (·.status) = some .pending
        ∧ ∀ j, j < i → (q[j]?).map (·.status) ≠ some .pending) := by
  refine ⟨?_, ?_, fun q => markFirstPending_first q⟩
  · have h := (queueInv_run cfg evs).2
    have := countUploading_le_countInFlight (runUpload cfg evs).queue
    omega
  · intro hfl
    unfold tryStart
    rw [hfl]
    simp

/-- Witness for the queue policy: after adding two small files under a
permissive config, exactly one item is uploading and the flagged state is
a fixed point of `processQueue`. -/
theorem processQueue_single_upload_witness :
    countUploading (runUpload ⟨100, none⟩
        [.add [⟨['a'], 1⟩, ⟨['b'], 1⟩]]).queue ≤ 1
    ∧ tryStart (runUpload ⟨100, none⟩ [.add [⟨['a'], 1⟩, ⟨['b'], 1⟩]])
        = runUpload ⟨100, none⟩ [.add [⟨['a'], 1⟩, ⟨['b'], 1⟩]]
    ∧ (([⟨⟨['a'], 1⟩, .complete⟩, ⟨⟨['b'], 1⟩, .pending⟩] : List QueueItem)[1]?).map
        (·.status) = some .pending := by
  have h := processQueue_single_upload ⟨100, none⟩ [.add [⟨['a'], 1⟩, ⟨['b'], 1⟩]]
  refine ⟨h.1, h.2.1 (by decide), ?_⟩
  exact (h.2.2 [⟨⟨['a'], 1⟩, .complete⟩, ⟨⟨['b'], 1⟩, .pending⟩] 1 (by decide)).1

end RustMedia.Upload

namespace RustMedia.Upload

/-! ## File validation at enqueue time (C10) -/

theorem markFirstPending_map_file (q : List QueueItem) :
    (markFirstPending q).map (·.file) = q.map (·.file) := by
  induction q with
  | nil => rfl
  | cons r rest ih =>
    by_cases hr : r.status = .pending <;> simp [markFirstPending, hr, ih]

theorem tryStart_map_file (s : UploadState) :
    (tryStart s).queue.map (·.file) = s.queue.map (·.file) := by
  unfold tryStart
  by_cases h : s.uploading = true
  · rw [if_pos h]
  · rw [if_neg h]
    by_cases hp : s.queue.any (fun r => decide (r.status = .pending))
    · rw [if_pos hp]
      exact markFirstPending_map_file s.queue
    · rw [if_neg hp]

theorem count_filter_rejected (cfg : UploadConfig) (f : JsFile)
    (hf : validateFile cfg f = false) (l : List JsFile) :
    (l.filter (validateFile cfg)).count f = 0 := by
  rw [List.count_eq_zero]
  intro hmem
  rw [List.mem_filter] at hmem
  rw [hmem.2] at hf
  exact Bool.noConfusion hf

/-- **C10.** A file is enqueued by `addFiles` iff it passes `validateFile`:
the files of the resulting queue are the old ones followed by exactly the
validated files, in order; `validateFile` accepts iff the size is at most
`maxFileSize` (strict greater-than check, so a file of exactly the maximum
size passes) and, when `allowedExtensions` is configured, the lowercased
text after the final dot is in the list; and a rejected file adds no
occurrence to the queue (so no upload request is ever made for it, uploads
being started only on queue items). -/
theorem addFiles_validates (cfg : UploadConfig) (s : UploadState) (files : List JsFile) :
    (addFiles cfg s files).queue.map (·.file)
        = s.queue.map (·.file) ++ files.filter (validateFile cfg)
    ∧ (∀ f : JsFile, validateFile cfg f = true
        ↔ f.size ≤ cfg.maxFileSize
          ∧ ∀ exts, cfg.allowedExtensions = some exts → extOf f.name ∈ exts)
    ∧ (∀ f ∈ files, validateFile cfg f = false →
        ((addFiles cfg s files).queue.map (·.file)).count f
          = (s.queue.map (·.file)).count f) := by
  have h1 : (addFiles cfg s files).queue.map (·.file)
      = s.queue.map (·.file) ++ files.filter (validateFile cfg) := by
    unfold addFiles
    rw [tryStart_map_file]
    dsimp only
    rw [List.map_append, List.map_map]
    congr 1
    rw [show ((fun x : QueueItem => x.file) ∘ fun f => (⟨f, .pending⟩ : QueueItem)) = id
          from rfl,
        List.map_id]
  refine ⟨h1, ?_, ?_⟩
  · intro f
    unfold validateFile
    by_cases hsz : f.size > cfg.maxFileSize
    · rw [if_pos hsz]
      exact ⟨fun hfalse => Bool.noConfusion hfalse, fun hrhs => absurd hrhs.1 (by omega)⟩
    · rw [if_neg hsz]
      cases hexts : cfg.allowedExtensions with
      | none =>
        dsimp only
        constructor
        · intro
          exact ⟨by omega, fun exts hc => Option.noConfusion hc⟩
        · intro
          rfl
      | some exts =>
        dsimp only
        by_cases hmem : extOf f.name ∈ exts
        · have hcont : exts.contains (extOf f.name) = true := List.elem_iff.mpr hmem
          rw [hcont]
          constructor
          · intro
            refine ⟨by omega, ?_⟩
            intro exts1 hc
            obtain rfl := Option.some.inj hc
            exact hmem
          · intro
            rfl
        · have hcont : exts.contains (extOf f.name) = false := by
            rcases hb : exts.contains (extOf f.name) with _ | _
            · rfl
            · exact absurd (List.elem_iff.mp hb) hmem
          rw [hcont]
          constructor
          · intro hfalse
            exact Bool.noConfusion hfalse
          · intro hrhs
            exact absurd (hrhs.2 exts rfl) hmem
  · intro f hf hbad
    rw [h1, List.count_append, count_filter_rejected cfg f hbad]
    omega

/-- Witness for enqueue validation: with a 100-byte limit and allowed
extension "jpg", a 100-byte "a.jpg" (exactly at the limit) is accepted and
enqueued, while a "b.png" is rejected and never appears in the queue. -/
theorem addFiles_validates_witness :
    validateFile ⟨100, some [['j', 'p', 'g']]⟩ ⟨['a', '.', 'j', 'p', 'g'], 100⟩ = true
    ∧ (addFiles ⟨100, some [['j', 'p', 'g']]⟩ ⟨[], false⟩
        [⟨['a', '.', 'j', 'p', 'g'], 100⟩, ⟨['b', '.', 'p', 'n', 'g'], 50⟩]).queue.map (·.file)
        = [⟨['a', '.', 'j', 'p', 'g'], 100⟩]
    ∧ ((addFiles ⟨100, some [['j', 'p', 'g']]⟩ ⟨[], false⟩
        [⟨['a', '.', 'j', 'p', 'g'], 100⟩, ⟨['b', '.', 'p', 'n', 'g'], 50⟩]).queue.map
          (·.file)).count ⟨['b', '.', 'p', 'n', 'g'], 50⟩ = 0 := by
  have h := addFiles_validates ⟨100, some [['j', 'p', 'g']]⟩ ⟨[], false⟩
      [⟨['a', '.', 'j', 'p', 'g'], 100⟩, ⟨['b', '.', 'p', 'n', 'g'], 50⟩]
  refine ⟨?_, ?_, ?_⟩
  · refine (h.2.1 ⟨['a', '.', 'j', 'p', 'g'], 100⟩).mpr ⟨by decide, ?_⟩
    intro exts hc
    obtain rfl := Option.some.inj hc
    decide
  · rw [h.1]
    decide
  · have h3 := h.2.2 ⟨['b', '.', 'p', 'n', 'g'], 50⟩ (by decide) (by decide)
    rw [h3]
    decide

end RustMedia.Upload


namespace RustMedia.Folders

/-! ## Admin folder-deletion flow (C8)

`RustMedia.Folders.deleteFolder` (settings.js lines 707–729) first asks
for confirmation, then calls `RustMedia.API.deleteFolder(folderId)` —
whose `force` parameter defaults to `false` (admin.js lines 89–93).  Only
when that call throws an error whose message includes the substring
"not empty" does it show a second confirmation, and only on a second yes
does it call `RustMedia.API.deleteFolder(folderId, true)`.  Messages are
lists of characters(JS strings). -/

/-- Whether `sub` occurs as a contiguous substring, the semantics of
JS `String.prototype.includes`. -/
def containsSub (sub : List Char) : List Char → Bool
  | [] => sub.isEmpty
  | c :: rest => sub.isPrefixOf (c :: rest) || containsSub sub rest

/-- The outcome the awaited API call settles with: success, or an error
carrying a message. -/
inductive ApiOutcome where
  | ok
  | err (msg : List Char)
deriving Repr, DecidableEq

/-- One HTTP DELETE issued by `RustMedia.API.deleteFolder(id, force)`;
only the `force` query flag matters to the claim. -/
structure DeleteRequest where
  force : Bool
deriving Repr, DecidableEq

/-- The requests the `deleteFolder` flow issues, as a function of the
first confirmation, the first request's outcome, and the second
confirmation.  The first call `RustMedia.API.deleteFolder(folderId)` uses
the default `force = false`; the retry is `deleteFolder(folderId, true)`. -/
def deleteFolderRequests (confirm1 : Bool) (resp : ApiOutcome) (confirm2 : Bool) :
    List DeleteRequest :=
  if !confirm1 then []
  else
    ⟨false⟩ ::
      (match resp with
       | .ok => []
       | .err msg =>
          if containsSub ('n' :: 'o' :: 't' :: ' ' :: 'e' :: 'm' :: 'p' :: 't' :: 'y' :: []) msg then
            if confirm2 then [⟨true⟩] else []
          else [])

/-- **C8.** The flow's first delete request (when any is issued) carries
force=false, and a force=true request is only ever the second request,
issued after the first came back as an error whose message contains
"not empty" and the user confirmed again; a folder is never force-deleted
on the first attempt. -/
theorem deleteFolder_force_only_after_not_empty
    (c1 : Bool) (resp : ApiOutcome) (c2 : Bool) :
    (∀ r0 : DeleteRequest,
        (deleteFolderRequests c1 resp c2).head? = some r0 → r0.force = false)
    ∧ (∀ (i : Nat) (req : DeleteRequest),
        (deleteFolderRequests c1 resp c2)[i]? = some req → req.force = true →
          i = 1
          ∧ (∃ msg, resp = .err msg
              ∧ containsSub
                  ('n' :: 'o' :: 't' :: ' ' :: 'e' :: 'm' :: 'p' :: 't' :: 'y' :: []) msg = true)
          ∧ c2 = true
          ∧ (deleteFolderRequests c1 resp c2)[0]? = some ⟨false⟩) := by
  cases c1 with
  | false =>
    constructor
    · intro r0 h
      simp [deleteFolderRequests] at h
    · intro i req h
      simp [deleteFolderRequests] at h
  | true =>
    cases resp with
    | ok =>
      constructor
      · intro r0 h
        simp [deleteFolderRequests] at h
        rw [← h]
      · intro i req h hforce
        simp [deleteFolderRequests] at h
        cases i with
        | zero =>
          simp at h
          rw [← h] at hforce
          exact Bool.noConfusion hforce
        | succ i => simp at h
    | err msg =>
      by_cases hm : containsSub
          ('n' :: 'o' :: 't' :: ' ' :: 'e' :: 'm' :: 'p' :: 't' :: 'y' :: []) msg
      · cases c2 with
        | true =>
          constructor
          · intro r0 h
            simp [deleteFolderRequests, hm] at h
            rw [← h]
          · intro i req h hforce
            simp only [deleteFolderRequests, Bool.not_true, Bool.false_eq_true, if_false,
              hm, if_true] at h
            match i, h with
            | 0, h =>
              rw [← Option.some.inj h] at hforce
              exact Bool.noConfusion hforce
            | 1, h =>
              exact ⟨rfl, ⟨msg, rfl, hm⟩, rfl, by simp [deleteFolderRequests, hm]⟩
        | false =>
          constructor
          · intro r0 h
            simp [deleteFolderRequests, hm] at h
            rw [← h]
          · intro i req h hforce
            simp [deleteFolderRequests, hm] at h
            cases i with
            | zero =>
              simp at h
              rw [← h] at hforce
              exact Bool.noConfusion hforce
            | succ i => simp at h
      · constructor
        · intro r0 h
          simp [deleteFolderRequests, hm] at h
          rw [← h]
        · intro i req h hforce
          simp [deleteFolderRequests, hm] at h
          cases i with
          | zero =>
            simp at h
            rw [← h] at hforce
            exact Bool.noConfusion hforce
          | succ i => simp at h

/-- Witness for the deletion flow: with both confirmations given and a
"folder is not empty" error on the first request, the flow issues exactly
[force=false, force=true], and the theorem pins the force=true request to
position 1 with its justification. -/
theorem deleteFolder_force_only_after_not_empty_witness :
    deleteFolderRequests true
        (.err ('f' :: 'o' :: 'l' :: 'd' :: 'e' :: 'r' :: ' ' :: 'n' :: 'o' :: 't' :: ' '
          :: 'e' :: 'm' :: 'p' :: 't' :: 'y' :: [])) true
      = [⟨false⟩, ⟨true⟩]
    ∧ (1 : Nat) = 1
    ∧ (∃ msg, (ApiOutcome.err ('f' :: 'o' :: 'l' :: 'd' :: 'e' :: 'r' :: ' ' :: 'n' :: 'o'
          :: 't' :: ' ' :: 'e' :: 'm' :: 'p' :: 't' :: 'y' :: []) : ApiOutcome) = .err msg
        ∧ containsSub
            ('n' :: 'o' :: 't' :: ' ' :: 'e' :: 'm' :: 'p' :: 't' :: 'y' :: []) msg = true) := by
  have h := deleteFolder_force_only_after_not_empty true
      (.err ('f' :: 'o' :: 'l' :: 'd' :: 'e' :: 'r' :: ' ' :: 'n' :: 'o' :: 't' :: ' '
        :: 'e' :: 'm' :: 'p' :: 't' :: 'y' :: [])) true
  have h2 := h.2 1 ⟨true⟩ (by decide) rfl
  exact ⟨by decide, h2.1, h2.2.1⟩

end RustMedia.Folders

namespace RustMedia.Format

/-! ## `RustMedia.Format.fileSize` (admin.js lines 417–423)

The JS computes `i = Math.floor(Math.log(bytes) / Math.log(1024))` and
returns `parseFloat((bytes / Math.pow(1024, i)).toFixed(2)) + ' ' + sizes[i]`.
For an integer `bytes ≥ 1` the real number `log(bytes)/log(1024)` has
floor `Nat.log 1024 bytes` (the base-1024 integer logarithm), which is how
the index expression is embedded.  JS doubles are modelled as exact
rationals: `toFixed(2)` is rounding to two decimals, and the decimal
rendering of the number is abstracted by the rational's string form — no
claim constrains the numeric text.  Indexing past the end of `sizes`
yields `undefined`, which the `+` string concatenation renders as
"undefined". -/

def sizes : List String := ["B", "KB", "MB", "GB", "TB"]

/-- `x.toFixed(2)` followed by `parseFloat`, as an exact rational. -/
def toFixed2 (q : ℚ) : ℚ := (round (q * 100) : ℚ) / 100

/-- The numeric part `parseFloat((bytes / Math.pow(1024, i)).toFixed(2))`. -/
def numPart (bytes i : Nat) : String :=
  toString (toFixed2 ((bytes : ℚ) / (1024 : ℚ) ^ i))

def fileSize (bytes : Nat) : String :=
  if bytes = 0 then "0 B"
  else
    numPart bytes (Nat.log 1024 bytes) ++ " "
      ++ ((sizes[Nat.log 1024 bytes]?).getD "undefined")

/-- **C9.** `fileSize 0 = "0 B"`; for `1 ≤ b < 1024^5` the result is a
number suffixed by the unit at index `⌊log b / log 1024⌋` of
['B','KB','MB','GB','TB']; for `b ≥ 1024^5` that index is past the end of
the unit array, so the suffix is the out-of-range (undefined) element
rendered "undefined" rather than a valid unit. -/
theorem fileSize_unit_selection (b : Nat) :
    fileSize 0 = "0 B"
    ∧ (1 ≤ b → b < 1024 ^ 5 →
        ∃ u pre, sizes[Nat.log 1024 b]? = some u ∧ u ∈ sizes
          ∧ fileSize b = pre ++ " " ++ u)
    ∧ (1024 ^ 5 ≤ b →
        sizes[Nat.log 1024 b]? = none
        ∧ ∃ pre, fileSize b = pre ++ " " ++ "undefined") := by
  refine ⟨rfl, ?_, ?_⟩
  · intro h1 h2
    have hb0 : b ≠ 0 := by omega
    have hlog : Nat.log 1024 b < 5 :=
      (Nat.lt_pow_iff_log_lt (by norm_num) hb0).mp h2
    have hlt : Nat.log 1024 b < sizes.length := by simpa [sizes] using hlog
    refine ⟨sizes[Nat.log 1024 b], numPart b (Nat.log 1024 b),
      List.getElem?_eq_getElem hlt, List.getElem_mem hlt, ?_⟩
    unfold fileSize
    rw [if_neg hb0, List.getElem?_eq_getElem hlt]
    rfl
  · intro h
    have h5 : (0 : Nat) < 1024 ^ 5 := by norm_num
    have hb0 : b ≠ 0 := by omega
    have hlog : 5 ≤ Nat.log 1024 b :=
      (Nat.pow_le_iff_le_log (by norm_num) hb0).mp h
    have hnone : sizes[Nat.log 1024 b]? = none :=
      List.getElem?_eq_none (by simpa [sizes] using hlog)
    refine ⟨hnone, numPart b (Nat.log 1024 b), ?_⟩
    unfold fileSize
    rw [if_neg hb0, hnone]
    rfl

/-- Witness for the unit selection: at 1 byte the suffix is a real unit;
at 1024^5 bytes the index is out of range and the suffix is "undefined". -/
theorem fileSize_unit_selection_witness :
    (∃ u pre, sizes[Nat.log 1024 1]? = some u ∧ u ∈ sizes
      ∧ fileSize 1 = pre ++ " " ++ u)
    ∧ (sizes[Nat.log 1024 (1024 ^ 5)]? = none
      ∧ ∃ pre, fileSize (1024 ^ 5) = pre ++ " " ++ "undefined") :=
  ⟨(fileSize_unit_selection 1).2.1 (by norm_num) (by norm_num),
   (fileSize_unit_selection (1024 ^ 5)).2.2 (by norm_num)⟩

end RustMedia.Format

namespace RustMedia.Dedup

/-! ## Content-addressed deduplication (C2)

The schema (001_create_tables.sql lines 5–27) declares
`content_hash VARCHAR(64) NOT NULL, UNIQUE(content_hash)` on `media_items`
and ships `deduplicate = true` as the default setting.  The upload path
itself is engine code not under src/; it is modelled from the spec:
"digest(stream) -> ContentHash, a deterministic, collision-resistant
fixed-length identifier" and "If the assembled hash matches an existing
non-deleted MediaItem, the temp artifact is discarded, the existing item
is returned, and the upload is marked Completed without creating a new
MediaItem.  Otherwise the artifact is committed ... a MediaItem is
created."  Collision resistance is idealised as injectivity: the digest
of a byte sequence is the sequence itself. -/

/-- A `media_items` row, restricted to id, content_hash and the soft-delete
mark. -/
structure CatalogItem where
  id : Nat
  contentHash : List Nat
  deleted : Bool
deriving Repr, DecidableEq

/-- The media catalog: its rows and the next fresh id. -/
structure Catalog where
  items : List CatalogItem
  nextId : Nat
deriving Repr, DecidableEq

/-- Modelled from the spec: the Hash and Identity Service's deterministic,
collision-resistant digest, idealised as the identity on byte sequences. -/
def digest (content : List Nat) : List Nat := content

/-- Whether a row is a non-deleted item carrying this hash. -/
def liveWithHash (hsh : List Nat) (r : CatalogItem) : Bool :=
  !r.deleted && r.contentHash == hsh

/-- Modelled from the spec: the upload path with dedup on — hash the
content, return the existing non-deleted item on a hash match, otherwise
insert a fresh row with that hash. -/
def upload (c : Catalog) (content : List Nat) : Catalog × Nat :=
  match c.items.find? (liveWithHash (digest content)) with
  | some r => (c, r.id)
  | none =>
      ({ items := c.items ++ [⟨c.nextId, digest content, false⟩]
         nextId := c.nextId + 1 },
       c.nextId)

/-- Hash uniqueness among non-deleted rows: no hash is carried by two
live rows (the spec's invariant; the schema's `UNIQUE(content_hash)` is
even stronger). -/
def HashUnique (c : Catalog) : Prop :=
  ∀ hsh : List Nat, c.items.countP (liveWithHash hsh) ≤ 1

theorem upload_preserves_hashUnique (c : Catalog) (content : List Nat)
    (h : HashUnique c) : HashUnique (upload c content).1 := by
  unfold upload
  cases hf : c.items.find? (liveWithHash (digest content)) with
  | some r => exact h
  | none =>
    intro hsh
    dsimp only
    rw [List.countP_append]
    by_cases hh : hsh = digest content
    · subst hh
      have hz : c.items.countP (liveWithHash hsh) = 0 := by
        rw [List.countP_eq_zero]
        exact List.find?_eq_none.mp hf
      rw [hz]
      simp [List.countP_cons, liveWithHash, digest]
    · have hz : List.countP (liveWithHash hsh) [⟨c.nextId, digest content, false⟩] = 0 := by
        simp [List.countP_cons, liveWithHash]
        intro hc
        exact absurd hc.symm hh
      rw [hz]
      have := h hsh
      omega

/-- **C2.** Uploading the same byte content twice yields the same
MediaItem id, and the second upload leaves the catalog unchanged — it
resolves to the existing row rather than erroring or inserting a
duplicate — so no two non-deleted rows ever share a content hash
(the hash-uniqueness invariant is preserved by every upload). -/
theorem upload_dedup_idempotent (c : Catalog) (content : List Nat)
    (h : HashUnique c) :
    (upload (upload c content).1 content).2 = (upload c content).2
    ∧ (upload (upload c content).1 content).1 = (upload c content).1
    ∧ HashUnique (upload c content).1 := by
  refine ⟨?_, ?_, upload_preserves_hashUnique c content h⟩
  all_goals {
    unfold upload
    cases hf : c.items.find? (liveWithHash (digest content)) with
    | some r => rw [hf]
    | none =>
      dsimp only
      rw [List.find?_append, hf, Option.none_or]
      have : List.find? (liveWithHash (digest content))
          [⟨c.nextId, digest content, false⟩] = some ⟨c.nextId, digest content, false⟩ := by
        simp [liveWithHash]
      rw [this]
  }

/-- Witness for dedup idempotence: uploading the bytes [1, 2] twice into
the empty catalog returns the same id both times and adds a single row. -/
theorem upload_dedup_idempotent_witness :
    (upload (upload ⟨[], 0⟩ [1, 2]).1 [1, 2]).2 = (upload ⟨[], 0⟩ [1, 2]).2
    ∧ (upload (upload ⟨[], 0⟩ [1, 2]).1 [1, 2]).1 = (upload ⟨[], 0⟩ [1, 2]).1
    ∧ HashUnique (upload ⟨[], 0⟩ [1, 2]).1 := by
  have h := upload_dedup_idempotent ⟨[], 0⟩ [1, 2]
    (by intro hsh; simp [HashUnique])
  exact h

end RustMedia.Dedup
